import Mathlib

set_option maxHeartbeats 1000000
set_option maxRecDepth 100000

/-!
Verification of the gate0 policy-engine core: a shallow embedding of the
condition language, its non-recursive stack evaluator, depth and string
validation, the fixed-capacity stack, target matchers and evaluation
statistics, together with proofs of the specified properties.
-/

/-- Context value from src/value.rs: Bool, 64-bit signed Int, borrowed string.
The i64 is modelled as an unbounded Int since the code only compares values
for equality, which i64 does injectively. -/
inductive Value where
  | Bool (b : Bool)
  | Int (i : Int)
  | String (s : String)
deriving DecidableEq, Repr

/-- Modelled from the spec: the error enum lives in the crate error module,
which is not among the provided sources; the variants are taken from the
spec section 7 together with the construction sites in condition.rs and
fixed_stack.rs. Only the variants the verified code can produce are needed. -/
inductive PolicyError where
  | ConditionTooDeep (max actual : Nat)
  | StringTooLong (max actual : Nat)
  | EvalStackOverflow (max : Nat)
  | InternalError
deriving DecidableEq, Repr

/-- Alias for the core string type, needed because inside the Value
namespace the bare name String resolves to the Value.String constructor. -/
abbrev Str : Type := String

/-- Returns a string describing the type of a value, from src/value.rs. -/
def Value.type_name : Value → Str
  | .Bool _ => "Bool"
  | .Int _ => "Int"
  | .String _ => "String"

/-- Boolean condition tree from src/condition.rs. -/
inductive Condition where
  | True
  | False
  | Equals (attr : String) (value : Value)
  | NotEquals (attr : String) (value : Value)
  | And (a b : Condition)
  | Or (a b : Condition)
  | Not (c : Condition)
deriving DecidableEq, Repr

/-- Number of nodes of a condition tree (a proof-side measure). -/
def Condition.size : Condition → Nat
  | .True | .False | .Equals _ _ | .NotEquals _ _ => 1
  | .Not c => 1 + c.size
  | .And a b | .Or a b => 1 + a.size + b.size

/-- Number of internal (Not, And, Or) nodes of a condition tree. -/
def Condition.internals : Condition → Nat
  | .True | .False | .Equals _ _ | .NotEquals _ _ => 0
  | .Not c => 1 + c.internals
  | .And a b | .Or a b => 1 + a.internals + b.internals

/-- Preorder listing of the nodes of a condition tree: the node itself,
then the nodes of the left operand, then those of the right operand. -/
def Condition.preorder : Condition → List Condition
  | .True => [.True]
  | .False => [.False]
  | .Equals attr value => [.Equals attr value]
  | .NotEquals attr value => [.NotEquals attr value]
  | .Not c => .Not c :: c.preorder
  | .And a b => .And a b :: (a.preorder ++ b.preorder)
  | .Or a b => .Or a b :: (a.preorder ++ b.preorder)

/-- The usize maximum of the 64-bit targets the crate is built for. -/
def USIZE_MAX : Nat := 18446744073709551615

/-- Saturating usize addition, Rust saturating_add. -/
def satAdd (a b : Nat) : Nat := min (a + b) USIZE_MAX

/-- Height of a condition tree computed with saturating increments:
leaves have height 1, Not adds one, And/Or add one to the larger operand.
This is the recursive specification the iterative Condition.depth is
checked against. -/
def Condition.heightSat : Condition → Nat
  | .True | .False | .Equals _ _ | .NotEquals _ _ => 1
  | .Not c => satAdd c.heightSat 1
  | .And a b | .Or a b => satAdd (max a.heightSat b.heightSat) 1

/-- Attribute lookup from src/condition.rs: first pair with matching key. -/
def lookup_attr (context : List (String × Value)) (name : String) : Option Value :=
  (context.find? (fun p => p.fst == name)).map (fun p => p.snd)

/-- Naive recursive semantics of a condition, the specification the
stack-based evaluator is checked against: True/False are constants,
Equals/NotEquals compare the looked-up attribute (missing attribute gives
false for Equals and true for NotEquals, mismatched variants are unequal),
Not negates, And/Or conjoin and disjoin. -/
def evalRec (c : Condition) (context : List (String × Value)) : Bool :=
  match c with
  | .True => true
  | .False => false
  | .Equals attr value =>
    match lookup_attr context attr with
    | some v => decide (v = value)
    | none => false
  | .NotEquals attr value =>
    match lookup_attr context attr with
    | some v => !decide (v = value)
    | none => true
  | .Not c => !(evalRec c context)
  | .And a b => evalRec a context && evalRec b context
  | .Or a b => evalRec a context || evalRec b context

/-- Work item of the evaluate loop in src/condition.rs. -/
inductive StackItem where
  | Eval (c : Condition)
  | ApplyNot
  | ApplyAnd
  | ApplyOr
deriving DecidableEq, Repr

/-- Final pop of the results stack in evaluate:
results.pop().ok_or(InternalError). -/
def finalPop : List Bool → Except PolicyError Bool
  | [] => .error .InternalError
  | b :: _ => .ok b

/-- Attaches ghost observations to one loop iteration of the evaluator:
counts the iteration, records the condition when the item was an Eval, and
folds the work-stack and results-stack lengths seen at the start of the
iteration into the running maxima of the remaining run. -/
def stepWrap (node : Option Condition) (curW curR : Nat) :
    Option (Except PolicyError Bool × Nat × List Condition × Nat × Nat) →
    Option (Except PolicyError Bool × Nat × List Condition × Nat × Nat)
  | none => none
  | some (r, n, tr, mw, mr) =>
    some (r, n + 1, (match node with | some c => c :: tr | none => tr),
      max curW mw, max curR mr)

/-- The evaluate loop of src/condition.rs (lines 150-197), embedded with
explicit fuel; the head of each list is the top of the corresponding stack.
The first tuple component is what the Rust loop computes; the other four
are ghost observations (iterations performed, conditions visited in order,
maximum work-stack length, maximum results-stack length) introduced by
stepWrap and never consulted by the evaluation itself.  The fuel only
manufactures termination for Lean: a run is proved below to succeed
whenever the fuel is at least the stack weight. -/
def runEval (context : List (String × Value)) :
    Nat → List StackItem → List Bool →
    Option (Except PolicyError Bool × Nat × List Condition × Nat × Nat)
  | _, [], results => some (finalPop results, 0, [], 0, results.length)
  | 0, _ :: _, _ => none
  | fuel+1, item :: stack, results =>
    match item with
    | .Eval c =>
      match c with
      | .True =>
        stepWrap (some .True) (stack.length + 1) results.length
          (runEval context fuel stack (true :: results))
      | .False =>
        stepWrap (some .False) (stack.length + 1) results.length
          (runEval context fuel stack (false :: results))
      | .Equals attr value =>
        stepWrap (some (.Equals attr value)) (stack.length + 1) results.length
          (runEval context fuel stack
            ((match lookup_attr context attr with
              | some v => decide (v = value)
              | none => false) :: results))
      | .NotEquals attr value =>
        stepWrap (some (.NotEquals attr value)) (stack.length + 1) results.length
          (runEval context fuel stack
            ((match lookup_attr context attr with
              | some v => !decide (v = value)
              | none => true) :: results))
      | .Not inner =>
        stepWrap (some (.Not inner)) (stack.length + 1) results.length
          (runEval context fuel (.Eval inner :: .ApplyNot :: stack) results)
      | .And a b =>
        stepWrap (some (.And a b)) (stack.length + 1) results.length
          (runEval context fuel (.Eval a :: .Eval b :: .ApplyAnd :: stack) results)
      | .Or a b =>
        stepWrap (some (.Or a b)) (stack.length + 1) results.length
          (runEval context fuel (.Eval a :: .Eval b :: .ApplyOr :: stack) results)
    | .ApplyNot =>
      match results with
      | [] => some (.error .InternalError, 1, [], stack.length + 1, results.length)
      | v :: rs =>
        stepWrap none (stack.length + 1) results.length
          (runEval context fuel stack ((!v) :: rs))
    | .ApplyAnd =>
      match results with
      | b :: a :: rs =>
        stepWrap none (stack.length + 1) results.length
          (runEval context fuel stack ((a && b) :: rs))
      | _ => some (.error .InternalError, 1, [], stack.length + 1, results.length)
    | .ApplyOr =>
      match results with
      | b :: a :: rs =>
        stepWrap none (stack.length + 1) results.length
          (runEval context fuel stack ((a || b) :: rs))
      | _ => some (.error .InternalError, 1, [], stack.length + 1, results.length)

/-- Condition::evaluate from src/condition.rs: run the work-stack loop
starting from a single Eval item and empty results.  Twice the node count
is enough fuel (proved below), so the fallback branch is unreachable. -/
def Condition.evaluate (c : Condition) (context : List (String × Value)) :
    Except PolicyError Bool :=
  match runEval context (2 * c.size) [.Eval c] [] with
  | some (r, _, _, _, _) => r
  | none => .error .InternalError

/-- Weight of a work-stack item, the fuel one item may consume:
an Eval of a tree with n nodes takes at most 2n iterations, an apply
marker takes one. -/
def itemWeight : StackItem → Nat
  | .Eval c => 2 * c.size
  | _ => 1

/-- Total weight of a work stack. -/
def stackWeight : List StackItem → Nat
  | [] => 0
  | item :: rest => itemWeight item + stackWeight rest

/-- Exact number of loop iterations a work stack still causes:
an Eval of a tree visits every node once plus one apply marker per
internal node, a pending apply marker is one iteration. -/
def iterCount : List StackItem → Nat
  | [] => 0
  | .Eval c :: rest => (c.size + c.internals) + iterCount rest
  | _ :: rest => 1 + iterCount rest

/-- Conditions a work stack will still visit, in visiting order. -/
def traceOf : List StackItem → List Condition
  | [] => []
  | .Eval c :: rest => c.preorder ++ traceOf rest
  | _ :: rest => traceOf rest

/-- Bound on how much the results stack can still grow: each node of a
pending Eval pushes one boolean, apply markers never grow the stack. -/
def pot : List StackItem → Nat
  | [] => 0
  | .Eval c :: rest => c.size + pot rest
  | _ :: rest => pot rest

/-- Absorption function of the evaluator: processes the work stack
item by item, replacing a whole Eval item by its recursive value.  Each
machine step preserves it, which is the key to the refinement proof. -/
def absorb (context : List (String × Value)) :
    List StackItem → List Bool → Except PolicyError Bool
  | [], results => finalPop results
  | .Eval c :: rest, results => absorb context rest (evalRec c context :: results)
  | .ApplyNot :: rest, results =>
    match results with
    | v :: rs => absorb context rest ((!v) :: rs)
    | [] => .error .InternalError
  | .ApplyAnd :: rest, results =>
    match results with
    | b :: a :: rs => absorb context rest ((a && b) :: rs)
    | _ => .error .InternalError
  | .ApplyOr :: rest, results =>
    match results with
    | b :: a :: rs => absorb context rest ((a || b) :: rs)
    | _ => .error .InternalError

/-- Work item of the iterative depth computation in src/condition.rs:
visit a node, or combine the results of one (count 1) or two (count 2)
already-computed children. -/
inductive DepthItem where
  | Visit (c : Condition)
  | Computed (count : Nat)
deriving DecidableEq, Repr

/-- The depth loop of src/condition.rs (lines 51-87), embedded with
explicit fuel; list heads are stack tops.  Pops of an empty results
stack fall back to 0 (unwrap_or(0)), exactly as the source does, and the
final pop likewise.  The fuel only manufactures termination for Lean. -/
def runDepth : Nat → List DepthItem → List Nat → Option Nat
  | _, [], results => some (results.headD 0)
  | 0, _ :: _, _ => none
  | fuel+1, item :: stack, results =>
    match item with
    | .Visit c =>
      match c with
      | .True => runDepth fuel stack (1 :: results)
      | .False => runDepth fuel stack (1 :: results)
      | .Equals _ _ => runDepth fuel stack (1 :: results)
      | .NotEquals _ _ => runDepth fuel stack (1 :: results)
      | .Not inner =>
        runDepth fuel (.Visit inner :: .Computed 1 :: stack) results
      | .And a b =>
        runDepth fuel (.Visit a :: .Visit b :: .Computed 2 :: stack) results
      | .Or a b =>
        runDepth fuel (.Visit a :: .Visit b :: .Computed 2 :: stack) results
    | .Computed count =>
      if count = 1 then
        runDepth fuel stack (satAdd (results.headD 0) 1 :: results.tail)
      else
        runDepth fuel stack
          (satAdd (max (results.tail.headD 0) (results.headD 0)) 1
            :: results.tail.tail)

/-- Condition::depth from src/condition.rs: iterative height computation.
Twice the node count is enough fuel (proved below), so the fallback 0 of
the getD is unreachable. -/
def Condition.depth (c : Condition) : Nat :=
  (runDepth (2 * c.size) [.Visit c] []).getD 0

/-- Weight of a depth-stack item, the fuel one item may consume. -/
def depthItemWeight : DepthItem → Nat
  | .Visit c => 2 * c.size
  | .Computed _ => 1

/-- Total weight of a depth stack. -/
def depthWeight : List DepthItem → Nat
  | [] => 0
  | item :: rest => depthItemWeight item + depthWeight rest

/-- Absorption function of the depth machine: processes the stack item by
item, replacing a whole Visit item by the saturating height of its node.
Each machine step preserves it. -/
def absorbD : List DepthItem → List Nat → Nat
  | [], results => results.headD 0
  | .Visit c :: rest, results => absorbD rest (c.heightSat :: results)
  | .Computed count :: rest, results =>
    if count = 1 then
      absorbD rest (satAdd (results.headD 0) 1 :: results.tail)
    else
      absorbD rest
        (satAdd (max (results.tail.headD 0) (results.headD 0)) 1
          :: results.tail.tail)

/-- validate_str from src/condition.rs: byte length against the limit. -/
def validate_str (s : String) (max_len : Nat) : Except PolicyError Unit :=
  if max_len < s.utf8ByteSize then
    .error (.StringTooLong max_len s.utf8ByteSize)
  else
    .ok ()

/-- The string-checking walk of Condition::validate (condition.rs lines
105-123), embedded with explicit fuel; the head of the list is the top of
the walk stack, so children are pushed right then left and visited left
first.  The fuel only manufactures termination for Lean. -/
def runWalk (max_string_len : Nat) : Nat → List Condition → Option (Except PolicyError Unit)
  | _, [] => some (.ok ())
  | 0, _ :: _ => none
  | fuel+1, c :: stack =>
    match c with
    | .True | .False => runWalk max_string_len fuel stack
    | .Equals attr value | .NotEquals attr value =>
      match validate_str attr max_string_len with
      | .error e => some (.error e)
      | .ok _ =>
        match value with
        | .String s =>
          match validate_str s max_string_len with
          | .error e => some (.error e)
          | .ok _ => runWalk max_string_len fuel stack
        | _ => runWalk max_string_len fuel stack
    | .Not inner => runWalk max_string_len fuel (inner :: stack)
    | .And a b | .Or a b => runWalk max_string_len fuel (a :: b :: stack)

/-- Total node count of a list of condition trees. -/
def sizeList : List Condition → Nat
  | [] => 0
  | c :: rest => c.size + sizeList rest

/-- Condition::validate from src/condition.rs: depth bound first, then the
non-recursive string-length walk.  The node count is enough fuel for the
walk (proved below), so the fallback branch is unreachable. -/
def Condition.validate (c : Condition) (max_depth max_string_len : Nat) :
    Except PolicyError Unit :=
  let actual := c.depth
  if max_depth < actual then
    .error (.ConditionTooDeep max_depth actual)
  else
    match runWalk max_string_len c.size [c] with
    | some r => r
    | none => .error .InternalError

/-- Sequencing of unit-valued fallible steps: the Rust question-mark
operator specialized to this development. -/
def seqE : Except PolicyError Unit → Except PolicyError Unit → Except PolicyError Unit
  | .ok _, e => e
  | .error err, _ => .error err

/-- Recursive specification of the string-length walk on one tree. -/
def checkStrings (max_string_len : Nat) : Condition → Except PolicyError Unit
  | .True | .False => .ok ()
  | .Equals attr value | .NotEquals attr value =>
    seqE (validate_str attr max_string_len)
      (match value with
       | .String s => validate_str s max_string_len
       | _ => .ok ())
  | .Not inner => checkStrings max_string_len inner
  | .And a b | .Or a b =>
    seqE (checkStrings max_string_len a) (checkStrings max_string_len b)

/-- Absorption function of the string walk: one whole tree at a time. -/
def absorbW (max_string_len : Nat) : List Condition → Except PolicyError Unit
  | [] => .ok ()
  | c :: rest => seqE (checkStrings max_string_len c) (absorbW max_string_len rest)

/-- All strings occurring in a condition tree, in walk order: attribute
names and String literals of Equals and NotEquals nodes. -/
def condStrings : Condition → List String
  | .True | .False => []
  | .Equals attr (.String s) | .NotEquals attr (.String s) => [attr, s]
  | .Equals attr _ | .NotEquals attr _ => [attr]
  | .Not inner => condStrings inner
  | .And a b | .Or a b => condStrings a ++ condStrings b

/-- FixedStack from src/fixed_stack.rs: the backing array is modelled by
the list of its initialized slots, most recently written first (the source
keeps the top at index len - 1, so the list head is the top). -/
structure FixedStack (T : Type) (N : Nat) where
  buf : List T
deriving DecidableEq, Repr

/-- FixedStack::new: no initialized slots. -/
def FixedStack.new (T : Type) (N : Nat) : FixedStack T N := ⟨[]⟩

/-- FixedStack::push: fails with EvalStackOverflow when the stack holds N
items, otherwise writes the value at the top and grows the length. -/
def FixedStack.push {T : Type} {N : Nat} (s : FixedStack T N) (value : T) :
    Except PolicyError (FixedStack T N) :=
  if N ≤ s.buf.length then .error (.EvalStackOverflow N)
  else .ok ⟨value :: s.buf⟩

/-- FixedStack::pop: None when empty, otherwise the most recent value and
the shrunk stack. -/
def FixedStack.pop {T : Type} {N : Nat} (s : FixedStack T N) :
    Option (T × FixedStack T N) :=
  match s.buf with
  | [] => none
  | v :: rest => some (v, ⟨rest⟩)

/-- FixedStack::len. -/
def FixedStack.len {T : Type} {N : Nat} (s : FixedStack T N) : Nat := s.buf.length

/-- FixedStack::is_empty. -/
def FixedStack.is_empty {T : Type} {N : Nat} (s : FixedStack T N) : Bool :=
  s.buf.isEmpty

/-- Matcher from src/target.rs. -/
inductive Matcher where
  | Any
  | Exact (s : String)
  | OneOf (options : List String)
deriving DecidableEq, Repr

/-- Matcher::matches: Any accepts everything, Exact is string equality,
OneOf is a linear membership scan. -/
def Matcher.matches (m : Matcher) (value : String) : Bool :=
  match m with
  | .Any => true
  | .Exact expected => value == expected
  | .OneOf options => options.any (fun opt => opt == value)

/-- Target from src/target.rs: one matcher per request field. -/
structure Target where
  principal : Matcher
  action : Matcher
  resource : Matcher
deriving DecidableEq, Repr

/-- Target::any. -/
def Target.anyTarget : Target := ⟨.Any, .Any, .Any⟩

/-- Target::matches: conjunction of the three field matches. -/
def Target.matches (t : Target) (principal action resource : String) : Bool :=
  t.principal.matches principal && t.action.matches action
    && t.resource.matches resource

/-- Maximum of the u16 counters of EvaluationStats. -/
def U16_MAX : Nat := 65535

/-- Saturating u16 addition, Rust saturating_add on u16. -/
def satAdd16 (a b : Nat) : Nat := min (a + b) U16_MAX

/-- EvaluationStats from src/stats.rs; the u16 and u8 fields are
modelled as Nat, with the saturation bounds applied where the source
applies them. -/
structure EvaluationStats where
  rules_checked : Nat
  max_depth_reached : Nat
  condition_evals : Nat
deriving DecidableEq, Repr

/-- EvaluationStats::new. -/
def EvaluationStats.new : EvaluationStats := ⟨0, 0, 0⟩

/-- EvaluationStats::inc_rules: saturating increment of rules_checked. -/
def EvaluationStats.inc_rules (s : EvaluationStats) : EvaluationStats :=
  { s with rules_checked := satAdd16 s.rules_checked 1 }

/-- EvaluationStats::update_depth: keep the larger depth. -/
def EvaluationStats.update_depth (s : EvaluationStats) (depth : Nat) : EvaluationStats :=
  if s.max_depth_reached < depth then { s with max_depth_reached := depth } else s

/-- EvaluationStats::inc_condition_evals: saturating increment. -/
def EvaluationStats.inc_condition_evals (s : EvaluationStats) : EvaluationStats :=
  { s with condition_evals := satAdd16 s.condition_evals 1 }

/-- Modelled from the spec: capacity of the evaluation stacks the spec
prescribes for Condition::evaluate, derived from the compiled-in ceiling
ABSOLUTE_MAX_CONDITION_DEPTH = 32 of section 6 as the worst-case work
stack for a tree of that depth, about two per level plus a small
constant (section 4.6). -/
def FIXED_EVAL_CAPACITY : Nat := 66

/-- Push onto a capacity-bounded stack, failing with EvalStackOverflow
exactly as FixedStack::push does. -/
def pushCap {A : Type} (capacity : Nat) (xs : List A) (x : A) :
    Except PolicyError (List A) :=
  if capacity ≤ xs.length then .error (.EvalStackOverflow capacity)
  else .ok (x :: xs)

/-- Modelled from the spec: the FixedStack-backed evaluate loop described
in sections 4.2, 4.5 and 4.6, which the sources do not contain (the
Condition::evaluate under src uses growable Vec stacks).  Identical to
runEval except that every push goes through a capacity check of
FIXED_EVAL_CAPACITY and an overflow aborts evaluation. -/
def runEvalFixed (context : List (String × Value)) :
    Nat → List StackItem → List Bool → Option (Except PolicyError Bool)
  | _, [], results => some (finalPop results)
  | 0, _ :: _, _ => none
  | fuel+1, item :: stack, results =>
    match item with
    | .Eval c =>
      match c with
      | .True =>
        match pushCap FIXED_EVAL_CAPACITY results true with
        | .error e => some (.error e)
        | .ok results2 => runEvalFixed context fuel stack results2
      | .False =>
        match pushCap FIXED_EVAL_CAPACITY results false with
        | .error e => some (.error e)
        | .ok results2 => runEvalFixed context fuel stack results2
      | .Equals attr value =>
        match pushCap FIXED_EVAL_CAPACITY results
            (match lookup_attr context attr with
             | some v => decide (v = value)
             | none => false) with
        | .error e => some (.error e)
        | .ok results2 => runEvalFixed context fuel stack results2
      | .NotEquals attr value =>
        match pushCap FIXED_EVAL_CAPACITY results
            (match lookup_attr context attr with
             | some v => !decide (v = value)
             | none => true) with
        | .error e => some (.error e)
        | .ok results2 => runEvalFixed context fuel stack results2
      | .Not inner =>
        match pushCap FIXED_EVAL_CAPACITY stack .ApplyNot with
        | .error e => some (.error e)
        | .ok s1 =>
          match pushCap FIXED_EVAL_CAPACITY s1 (.Eval inner) with
          | .error e => some (.error e)
          | .ok s2 => runEvalFixed context fuel s2 results
      | .And a b =>
        match pushCap FIXED_EVAL_CAPACITY stack .ApplyAnd with
        | .error e => some (.error e)
        | .ok s1 =>
          match pushCap FIXED_EVAL_CAPACITY s1 (.Eval b) with
          | .error e => some (.error e)
          | .ok s2 =>
            match pushCap FIXED_EVAL_CAPACITY s2 (.Eval a) with
            | .error e => some (.error e)
            | .ok s3 => runEvalFixed context fuel s3 results
      | .Or a b =>
        match pushCap FIXED_EVAL_CAPACITY stack .ApplyOr with
        | .error e => some (.error e)
        | .ok s1 =>
          match pushCap FIXED_EVAL_CAPACITY s1 (.Eval b) with
          | .error e => some (.error e)
          | .ok s2 =>
            match pushCap FIXED_EVAL_CAPACITY s2 (.Eval a) with
            | .error e => some (.error e)
            | .ok s3 => runEvalFixed context fuel s3 results
    | .ApplyNot =>
      match results with
      | [] => some (.error .InternalError)
      | v :: rs =>
        match pushCap FIXED_EVAL_CAPACITY rs (!v) with
        | .error e => some (.error e)
        | .ok results2 => runEvalFixed context fuel stack results2
    | .ApplyAnd =>
      match results with
      | b :: a :: rs =>
        match pushCap FIXED_EVAL_CAPACITY rs (a && b) with
        | .error e => some (.error e)
        | .ok results2 => runEvalFixed context fuel stack results2
      | _ => some (.error .InternalError)
    | .ApplyOr =>
      match results with
      | b :: a :: rs =>
        match pushCap FIXED_EVAL_CAPACITY rs (a || b) with
        | .error e => some (.error e)
        | .ok results2 => runEvalFixed context fuel stack results2
      | _ => some (.error .InternalError)

/-- Modelled from the spec: entry point of the FixedStack-backed
evaluator, the counterpart of Condition.evaluate used to compare the
source against the spec claim. -/
def evaluateFixedModel (c : Condition) (context : List (String × Value)) :
    Except PolicyError Bool :=
  match runEvalFixed context (2 * c.size) [.Eval c] [] with
  | some r => r
  | none => .error .InternalError

/-- A left-growing chain of Not nodes above True, used as the concrete
deep input separating the Vec-backed evaluator of the source from the
FixedStack-backed evaluator of the spec. -/
def notChain : Nat → Condition
  | 0 => .True
  | n+1 => .Not (notChain n)

theorem size_pos (c : Condition) : 1 ≤ c.size := by
  cases c <;> simp [Condition.size] <;> omega

theorem internals_le_size (c : Condition) : c.internals ≤ c.size := by
  induction c with
  | True => simp [Condition.internals, Condition.size]
  | False => simp [Condition.internals, Condition.size]
  | Equals attr value => simp [Condition.internals, Condition.size]
  | NotEquals attr value => simp [Condition.internals, Condition.size]
  | Not c ih => simp only [Condition.internals, Condition.size]; omega
  | And a b iha ihb => simp only [Condition.internals, Condition.size]; omega
  | Or a b iha ihb => simp only [Condition.internals, Condition.size]; omega

theorem preorder_length (c : Condition) : c.preorder.length = c.size := by
  induction c with
  | True => simp [Condition.preorder, Condition.size]
  | False => simp [Condition.preorder, Condition.size]
  | Equals attr value => simp [Condition.preorder, Condition.size]
  | NotEquals attr value => simp [Condition.preorder, Condition.size]
  | Not c ih => simp only [Condition.preorder, Condition.size, List.length_cons]; omega
  | And a b iha ihb =>
    simp only [Condition.preorder, Condition.size, List.length_cons, List.length_append]
    omega
  | Or a b iha ihb =>
    simp only [Condition.preorder, Condition.size, List.length_cons, List.length_append]
    omega

theorem stackLen_le_weight (stack : List StackItem) :
    stack.length ≤ stackWeight stack := by
  induction stack with
  | nil => simp [stackWeight]
  | cons item rest ih =>
    cases item with
    | Eval c =>
      have h := size_pos c
      simp only [List.length_cons, stackWeight, itemWeight]
      omega
    | ApplyNot => simp only [List.length_cons, stackWeight, itemWeight]; omega
    | ApplyAnd => simp only [List.length_cons, stackWeight, itemWeight]; omega
    | ApplyOr => simp only [List.length_cons, stackWeight, itemWeight]; omega


theorem runEval_master (context : List (String × Value)) :
    ∀ fuel stack results b,
      stackWeight stack ≤ fuel →
      absorb context stack results = .ok b →
      ∃ mw mr,
        runEval context fuel stack results =
          some (.ok b, iterCount stack, traceOf stack, mw, mr) ∧
        mw ≤ stackWeight stack ∧
        mr ≤ results.length + pot stack := by
  intro fuel
  induction fuel with
  | zero =>
    intro stack results b hw hab
    cases stack with
    | nil =>
      refine ⟨0, results.length, ?_, ?_, ?_⟩
      · simp only [absorb] at hab
        simp [runEval, iterCount, traceOf, hab]
      · simp [stackWeight]
      · simp [pot]
    | cons item rest =>
      exfalso
      cases item with
      | Eval c =>
        have h := size_pos c
        simp only [stackWeight, itemWeight] at hw
        omega
      | ApplyNot => simp only [stackWeight, itemWeight] at hw; omega
      | ApplyAnd => simp only [stackWeight, itemWeight] at hw; omega
      | ApplyOr => simp only [stackWeight, itemWeight] at hw; omega
  | succ fuel ih =>
    intro stack results b hw hab
    cases stack with
    | nil =>
      refine ⟨0, results.length, ?_, ?_, ?_⟩
      · simp only [absorb] at hab
        simp [runEval, iterCount, traceOf, hab]
      · simp [stackWeight]
      · simp [pot]
    | cons item rest =>
      have hlenrest := stackLen_le_weight rest
      cases item with
      | Eval c =>
        cases c with
        | True =>
          simp only [absorb, evalRec] at hab
          simp only [stackWeight, itemWeight, Condition.size] at hw
          obtain ⟨mw, mr, hrun, hmw, hmr⟩ :=
            ih rest (true :: results) b (by omega) hab
          refine ⟨max (rest.length + 1) mw, max results.length mr, ?_, ?_, ?_⟩
          · have hstep : runEval context (fuel + 1) (.Eval .True :: rest) results =
                stepWrap (some .True) (rest.length + 1) results.length
                  (runEval context fuel rest (true :: results)) := rfl
            rw [hstep, hrun]
            simp only [stepWrap, Option.some.injEq, Prod.mk.injEq, iterCount, traceOf,
              Condition.preorder, Condition.size, Condition.internals,
              List.cons_append, List.nil_append, List.append_assoc, true_and, and_true] <;>
              omega
          · simp only [stackWeight, itemWeight, Condition.size]
            omega
          · simp only [pot, Condition.size, List.length_cons] at hmr ⊢
            omega
        | False =>
          simp only [absorb, evalRec] at hab
          simp only [stackWeight, itemWeight, Condition.size] at hw
          obtain ⟨mw, mr, hrun, hmw, hmr⟩ :=
            ih rest (false :: results) b (by omega) hab
          refine ⟨max (rest.length + 1) mw, max results.length mr, ?_, ?_, ?_⟩
          · have hstep : runEval context (fuel + 1) (.Eval .False :: rest) results =
                stepWrap (some .False) (rest.length + 1) results.length
                  (runEval context fuel rest (false :: results)) := rfl
            rw [hstep, hrun]
            simp only [stepWrap, Option.some.injEq, Prod.mk.injEq, iterCount, traceOf,
              Condition.preorder, Condition.size, Condition.internals,
              List.cons_append, List.nil_append, List.append_assoc, true_and, and_true] <;>
              omega
          · simp only [stackWeight, itemWeight, Condition.size]
            omega
          · simp only [pot, Condition.size, List.length_cons] at hmr ⊢
            omega
        | Equals attr value =>
          simp only [absorb, evalRec] at hab
          simp only [stackWeight, itemWeight, Condition.size] at hw
          obtain ⟨mw, mr, hrun, hmw, hmr⟩ :=
            ih rest
              ((match lookup_attr context attr with
                | some v => decide (v = value)
                | none => false) :: results) b (by omega) hab
          refine ⟨max (rest.length + 1) mw, max results.length mr, ?_, ?_, ?_⟩
          · have hstep : runEval context (fuel + 1)
                (.Eval (.Equals attr value) :: rest) results =
                stepWrap (some (.Equals attr value)) (rest.length + 1) results.length
                  (runEval context fuel rest
                    ((match lookup_attr context attr with
                      | some v => decide (v = value)
                      | none => false) :: results)) := rfl
            rw [hstep, hrun]
            simp only [stepWrap, Option.some.injEq, Prod.mk.injEq, iterCount, traceOf,
              Condition.preorder, Condition.size, Condition.internals,
              List.cons_append, List.nil_append, List.append_assoc, true_and, and_true] <;>
              omega
          · simp only [stackWeight, itemWeight, Condition.size]
            omega
          · simp only [pot, Condition.size, List.length_cons] at hmr ⊢
            omega
        | NotEquals attr value =>
          simp only [absorb, evalRec] at hab
          simp only [stackWeight, itemWeight, Condition.size] at hw
          obtain ⟨mw, mr, hrun, hmw, hmr⟩ :=
            ih rest
              ((match lookup_attr context attr with
                | some v => !decide (v = value)
                | none => true) :: results) b (by omega) hab
          refine ⟨max (rest.length + 1) mw, max results.length mr, ?_, ?_, ?_⟩
          · have hstep : runEval context (fuel + 1)
                (.Eval (.NotEquals attr value) :: rest) results =
                stepWrap (some (.NotEquals attr value)) (rest.length + 1) results.length
                  (runEval context fuel rest
                    ((match lookup_attr context attr with
                      | some v => !decide (v = value)
                      | none => true) :: results)) := rfl
            rw [hstep, hrun]
            simp only [stepWrap, Option.some.injEq, Prod.mk.injEq, iterCount, traceOf,
              Condition.preorder, Condition.size, Condition.internals,
              List.cons_append, List.nil_append, List.append_assoc, true_and, and_true] <;>
              omega
          · simp only [stackWeight, itemWeight, Condition.size]
            omega
          · simp only [pot, Condition.size, List.length_cons] at hmr ⊢
            omega
        | Not inner =>
          simp only [absorb, evalRec] at hab
          have hab2 : absorb context (.Eval inner :: .ApplyNot :: rest) results = .ok b := by
            simp only [absorb]
            exact hab
          simp only [stackWeight, itemWeight, Condition.size] at hw
          obtain ⟨mw, mr, hrun, hmw, hmr⟩ :=
            ih (.Eval inner :: .ApplyNot :: rest) results b
              (by simp only [stackWeight, itemWeight]; omega) hab2
          refine ⟨max (rest.length + 1) mw, max results.length mr, ?_, ?_, ?_⟩
          · have hstep : runEval context (fuel + 1) (.Eval (.Not inner) :: rest) results =
                stepWrap (some (.Not inner)) (rest.length + 1) results.length
                  (runEval context fuel (.Eval inner :: .ApplyNot :: rest) results) := rfl
            rw [hstep, hrun]
            simp only [stepWrap, Option.some.injEq, Prod.mk.injEq, iterCount, traceOf,
              Condition.preorder, Condition.size, Condition.internals,
              List.cons_append, List.nil_append, List.append_assoc, true_and, and_true] <;>
              omega
          · simp only [stackWeight, itemWeight, Condition.size] at hmw ⊢
            omega
          · simp only [pot, Condition.size] at hmr ⊢
            omega
        | And a b2 =>
          simp only [absorb, evalRec] at hab
          have hab2 : absorb context (.Eval a :: .Eval b2 :: .ApplyAnd :: rest) results = .ok b := by
            simp only [absorb]
            exact hab
          simp only [stackWeight, itemWeight, Condition.size] at hw
          obtain ⟨mw, mr, hrun, hmw, hmr⟩ :=
            ih (.Eval a :: .Eval b2 :: .ApplyAnd :: rest) results b
              (by simp only [stackWeight, itemWeight]; omega) hab2
          refine ⟨max (rest.length + 1) mw, max results.length mr, ?_, ?_, ?_⟩
          · have hstep : runEval context (fuel + 1) (.Eval (.And a b2) :: rest) results =
                stepWrap (some (.And a b2)) (rest.length + 1) results.length
                  (runEval context fuel (.Eval a :: .Eval b2 :: .ApplyAnd :: rest) results) := rfl
            rw [hstep, hrun]
            simp only [stepWrap, Option.some.injEq, Prod.mk.injEq, iterCount, traceOf,
              Condition.preorder, Condition.size, Condition.internals,
              List.cons_append, List.nil_append, List.append_assoc, true_and, and_true] <;>
              omega
          · simp only [stackWeight, itemWeight, Condition.size] at hmw ⊢
            omega
          · simp only [pot, Condition.size] at hmr ⊢
            omega
        | Or a b2 =>
          simp only [absorb, evalRec] at hab
          have hab2 : absorb context (.Eval a :: .Eval b2 :: .ApplyOr :: rest) results = .ok b := by
            simp only [absorb]
            exact hab
          simp only [stackWeight, itemWeight, Condition.size] at hw
          obtain ⟨mw, mr, hrun, hmw, hmr⟩ :=
            ih (.Eval a :: .Eval b2 :: .ApplyOr :: rest) results b
              (by simp only [stackWeight, itemWeight]; omega) hab2
          refine ⟨max (rest.length + 1) mw, max results.length mr, ?_, ?_, ?_⟩
          · have hstep : runEval context (fuel + 1) (.Eval (.Or a b2) :: rest) results =
                stepWrap (some (.Or a b2)) (rest.length + 1) results.length
                  (runEval context fuel (.Eval a :: .Eval b2 :: .ApplyOr :: rest) results) := rfl
            rw [hstep, hrun]
            simp only [stepWrap, Option.some.injEq, Prod.mk.injEq, iterCount, traceOf,
              Condition.preorder, Condition.size, Condition.internals,
              List.cons_append, List.nil_append, List.append_assoc, true_and, and_true] <;>
              omega
          · simp only [stackWeight, itemWeight, Condition.size] at hmw ⊢
            omega
          · simp only [pot, Condition.size] at hmr ⊢
            omega
      | ApplyNot =>
        cases results with
        | nil =>
          simp only [absorb] at hab
          exact Except.noConfusion hab
        | cons v rs =>
          simp only [absorb] at hab
          simp only [stackWeight, itemWeight] at hw
          obtain ⟨mw, mr, hrun, hmw, hmr⟩ :=
            ih rest ((!v) :: rs) b (by omega) hab
          refine ⟨max (rest.length + 1) mw, max (v :: rs).length mr, ?_, ?_, ?_⟩
          · have hstep : runEval context (fuel + 1) (.ApplyNot :: rest) (v :: rs) =
                stepWrap none (rest.length + 1) (v :: rs).length
                  (runEval context fuel rest ((!v) :: rs)) := rfl
            rw [hstep, hrun]
            simp only [stepWrap, Option.some.injEq, Prod.mk.injEq, iterCount, traceOf,
              true_and, and_true] <;> omega
          · simp only [stackWeight, itemWeight]
            omega
          · simp only [pot, List.length_cons] at hmr ⊢
            omega
      | ApplyAnd =>
        cases results with
        | nil =>
          simp only [absorb] at hab
          exact Except.noConfusion hab
        | cons r1 t1 =>
          cases t1 with
          | nil =>
            simp only [absorb] at hab
            exact Except.noConfusion hab
          | cons r2 t2 =>
            simp only [absorb] at hab
            simp only [stackWeight, itemWeight] at hw
            obtain ⟨mw, mr, hrun, hmw, hmr⟩ :=
              ih rest ((r2 && r1) :: t2) b (by omega) hab
            refine ⟨max (rest.length + 1) mw, max (r1 :: r2 :: t2).length mr, ?_, ?_, ?_⟩
            · have hstep : runEval context (fuel + 1) (.ApplyAnd :: rest) (r1 :: r2 :: t2) =
                  stepWrap none (rest.length + 1) (r1 :: r2 :: t2).length
                    (runEval context fuel rest ((r2 && r1) :: t2)) := rfl
              rw [hstep, hrun]
              simp only [stepWrap, Option.some.injEq, Prod.mk.injEq, iterCount, traceOf,
                true_and, and_true] <;> omega
            · simp only [stackWeight, itemWeight]
              omega
            · simp only [pot, List.length_cons] at hmr ⊢
              omega
      | ApplyOr =>
        cases results with
        | nil =>
          simp only [absorb] at hab
          exact Except.noConfusion hab
        | cons r1 t1 =>
          cases t1 with
          | nil =>
            simp only [absorb] at hab
            exact Except.noConfusion hab
          | cons r2 t2 =>
            simp only [absorb] at hab
            simp only [stackWeight, itemWeight] at hw
            obtain ⟨mw, mr, hrun, hmw, hmr⟩ :=
              ih rest ((r2 || r1) :: t2) b (by omega) hab
            refine ⟨max (rest.length + 1) mw, max (r1 :: r2 :: t2).length mr, ?_, ?_, ?_⟩
            · have hstep : runEval context (fuel + 1) (.ApplyOr :: rest) (r1 :: r2 :: t2) =
                  stepWrap none (rest.length + 1) (r1 :: r2 :: t2).length
                    (runEval context fuel rest ((r2 || r1) :: t2)) := rfl
              rw [hstep, hrun]
              simp only [stepWrap, Option.some.injEq, Prod.mk.injEq, iterCount, traceOf,
                true_and, and_true] <;> omega
            · simp only [stackWeight, itemWeight]
              omega
            · simp only [pot, List.length_cons] at hmr ⊢
              omega

theorem absorb_single (context : List (String × Value)) (c : Condition) :
    absorb context [.Eval c] [] = .ok (evalRec c context) := by
  simp [absorb, finalPop]

theorem evaluate_eq (c : Condition) (context : List (String × Value)) :
    Condition.evaluate c context = .ok (evalRec c context) := by
  obtain ⟨mw, mr, hrun, hmw, hmr⟩ :=
    runEval_master context (2 * c.size) [.Eval c] [] (evalRec c context)
      (by simp [stackWeight, itemWeight]) (absorb_single context c)
  simp [Condition.evaluate, hrun]

theorem runEval_full (c : Condition) (context : List (String × Value)) :
    ∃ mw mr,
      runEval context (2 * c.size) [.Eval c] [] =
        some (.ok (evalRec c context), c.size + c.internals, c.preorder, mw, mr) ∧
      mw ≤ 2 * c.size ∧ mr ≤ c.size := by
  obtain ⟨mw, mr, hrun, hmw, hmr⟩ :=
    runEval_master context (2 * c.size) [.Eval c] [] (evalRec c context)
      (by simp [stackWeight, itemWeight]) (absorb_single context c)
  refine ⟨mw, mr, ?_, ?_, ?_⟩
  · simpa [iterCount, traceOf] using hrun
  · simpa [stackWeight, itemWeight] using hmw
  · simpa [pot] using hmr

/-- C1: for every condition tree and context the stack-based
Condition.evaluate returns Ok of exactly the boolean the naive recursive
semantics evalRec assigns (True to true, False to false, Not to negation,
And to conjunction, Or to disjunction, Equals/NotEquals by attribute
lookup); moreover the machine's visited-node trace is the full preorder of
the tree — every node, in particular both operands of each And/Or, is
evaluated exactly once, left operand first, with no short-circuiting. -/
theorem evaluate_refines_recursive_semantics (c : Condition)
    (context : List (String × Value)) :
    Condition.evaluate c context = .ok (evalRec c context) ∧
    ∃ mw mr,
      runEval context (2 * c.size) [.Eval c] [] =
        some (.ok (evalRec c context), c.size + c.internals, c.preorder, mw, mr) := by
  refine ⟨evaluate_eq c context, ?_⟩
  obtain ⟨mw, mr, hrun, _, _⟩ := runEval_full c context
  exact ⟨mw, mr, hrun⟩

/-- C2: evaluating Equals with an attribute absent from the context gives
Ok false and NotEquals gives Ok true (fail-closed lookup); comparing
against a context value of a different variant is treated as not-equal
with no error: Equals gives Ok false, NotEquals gives Ok true. -/
theorem evaluate_missing_attr_and_type_mismatch (attr : String)
    (value w : Value) (context : List (String × Value)) :
    (lookup_attr context attr = none →
      Condition.evaluate (.Equals attr value) context = .ok false ∧
      Condition.evaluate (.NotEquals attr value) context = .ok true) ∧
    (lookup_attr context attr = some w → w.type_name ≠ value.type_name →
      Condition.evaluate (.Equals attr value) context = .ok false ∧
      Condition.evaluate (.NotEquals attr value) context = .ok true) := by
  constructor
  · intro hnone
    constructor
    · rw [evaluate_eq (.Equals attr value) context]
      simp [evalRec, hnone]
    · rw [evaluate_eq (.NotEquals attr value) context]
      simp [evalRec, hnone]
  · intro hsome hne
    have hvne : w ≠ value := by
      intro h
      exact hne (by rw [h])
    constructor
    · rw [evaluate_eq (.Equals attr value) context]
      simp [evalRec, hsome, hvne]
    · rw [evaluate_eq (.NotEquals attr value) context]
      simp [evalRec, hsome, hvne]

theorem evaluate_missing_attr_and_type_mismatch_witness :
    (Condition.evaluate (.Equals "role" (.Bool true)) [("team", .String "eng")] = .ok false ∧
     Condition.evaluate (.NotEquals "role" (.Bool true)) [("team", .String "eng")] = .ok true) ∧
    (Condition.evaluate (.Equals "role" (.Bool true)) [("role", .Int 1)] = .ok false ∧
     Condition.evaluate (.NotEquals "role" (.Bool true)) [("role", .Int 1)] = .ok true) :=
  ⟨(evaluate_missing_attr_and_type_mismatch "role" (.Bool true) (.Int 1)
      [("team", .String "eng")]).1 (by rfl),
   (evaluate_missing_attr_and_type_mismatch "role" (.Bool true) (.Int 1)
      [("role", .Int 1)]).2 (by rfl) (by decide)⟩

/-- C9: evaluate always returns Ok with some boolean; the InternalError
branches of the loop (underflowing pops at apply markers and the final
pop) are unreachable, because the stack discipline always supplies the
operands and leaves exactly one boolean at the end. -/
theorem evaluate_internal_error_unreachable (c : Condition)
    (context : List (String × Value)) :
    ∃ b, Condition.evaluate c context = .ok b :=
  ⟨evalRec c context, evaluate_eq c context⟩

/-- C3 counterexample: the source Condition.evaluate is not the
FixedStack-bounded evaluator the claim describes — on a Not-chain of
depth 101 the source evaluator, whose Vec-backed stacks grow without
bound, returns Ok true, while the spec-modelled FixedStack evaluator
with the capacity derived from ABSOLUTE_MAX_CONDITION_DEPTH fails with
EvalStackOverflow. -/
theorem evaluate_not_fixedstack_counterexample :
    Condition.evaluate (notChain 100) [] = .ok true ∧
    evaluateFixedModel (notChain 100) [] = .error (.EvalStackOverflow 66) := by
  constructor
  · rfl
  · rfl

/-- C3 amended: Condition.evaluate uses two growable Vec-backed stacks
(pre-reserved to capacities 32 and 16, heap-allocated at call entry), not
fixed-capacity FixedStacks, and therefore never fails with
EvalStackOverflow whatever the input tree. -/
theorem evaluate_never_stack_overflow (c : Condition)
    (context : List (String × Value)) (n : Nat) :
    Condition.evaluate c context ≠ .error (.EvalStackOverflow n) := by
  intro h
  rw [evaluate_eq c context] at h
  exact Except.noConfusion h

theorem evaluate_never_stack_overflow_witness :
    Condition.evaluate (notChain 100) [] ≠ .error (.EvalStackOverflow 66) :=
  evaluate_never_stack_overflow (notChain 100) [] 66

/-- C7: for any condition that passed validate the evaluate run
terminates with an Ok boolean after exactly size + internals loop
iterations, which is at most twice the size of the tree; the visited
trace is the preorder of the tree (each node evaluated exactly once, each
Not/And/Or contributing exactly one apply marker), and the maximal work
stack and value stack lengths are bounded by twice the size and by the
size of the tree respectively — bounds depending on the tree alone. -/
theorem evaluate_terminates_bounded (c : Condition)
    (context : List (String × Value)) (D L : Nat)
    (hval : Condition.validate c D L = .ok ()) :
    ∃ b mw mr,
      runEval context (2 * c.size) [.Eval c] [] =
        some (.ok b, c.size + c.internals, c.preorder, mw, mr) ∧
      Condition.evaluate c context = .ok b ∧
      c.size + c.internals ≤ 2 * c.size ∧
      c.preorder.length = c.size ∧
      mw ≤ 2 * c.size ∧ mr ≤ c.size := by
  obtain ⟨mw, mr, hrun, hmw, hmr⟩ := runEval_full c context
  refine ⟨evalRec c context, mw, mr, hrun, ?_, ?_, preorder_length c, hmw, hmr⟩
  · simp [Condition.evaluate, hrun]
  · have h := internals_le_size c
    omega

theorem evaluate_terminates_bounded_witness :
    ∃ b mw mr,
      runEval [] (2 * (Condition.And .True .False).size)
          [.Eval (.And .True .False)] [] =
        some (.ok b, (Condition.And .True .False).size + (Condition.And .True .False).internals,
          (Condition.And .True .False).preorder, mw, mr) ∧
      Condition.evaluate (.And .True .False) [] = .ok b ∧
      (Condition.And .True .False).size + (Condition.And .True .False).internals ≤
        2 * (Condition.And .True .False).size ∧
      (Condition.And .True .False).preorder.length = (Condition.And .True .False).size ∧
      mw ≤ 2 * (Condition.And .True .False).size ∧
      mr ≤ (Condition.And .True .False).size :=
  evaluate_terminates_bounded (.And .True .False) [] 8 256 (by rfl)

theorem runDepth_master :
    ∀ fuel stack results,
      depthWeight stack ≤ fuel →
      runDepth fuel stack results = some (absorbD stack results) := by
  intro fuel
  induction fuel with
  | zero =>
    intro stack results hw
    cases stack with
    | nil => simp [runDepth, absorbD]
    | cons item rest =>
      exfalso
      cases item with
      | Visit c =>
        have h := size_pos c
        simp only [depthWeight, depthItemWeight] at hw
        omega
      | Computed k => simp only [depthWeight, depthItemWeight] at hw; omega
  | succ fuel ih =>
    intro stack results hw
    cases stack with
    | nil => simp [runDepth, absorbD]
    | cons item rest =>
      cases item with
      | Visit c =>
        cases c with
        | True =>
          have hstep : runDepth (fuel + 1) (.Visit .True :: rest) results =
              runDepth fuel rest (1 :: results) := rfl
          simp only [depthWeight, depthItemWeight, Condition.size] at hw
          rw [hstep, ih rest (1 :: results) (by omega)]
          simp [absorbD, Condition.heightSat]
        | False =>
          have hstep : runDepth (fuel + 1) (.Visit .False :: rest) results =
              runDepth fuel rest (1 :: results) := rfl
          simp only [depthWeight, depthItemWeight, Condition.size] at hw
          rw [hstep, ih rest (1 :: results) (by omega)]
          simp [absorbD, Condition.heightSat]
        | Equals attr value =>
          have hstep : runDepth (fuel + 1) (.Visit (.Equals attr value) :: rest) results =
              runDepth fuel rest (1 :: results) := rfl
          simp only [depthWeight, depthItemWeight, Condition.size] at hw
          rw [hstep, ih rest (1 :: results) (by omega)]
          simp [absorbD, Condition.heightSat]
        | NotEquals attr value =>
          have hstep : runDepth (fuel + 1) (.Visit (.NotEquals attr value) :: rest) results =
              runDepth fuel rest (1 :: results) := rfl
          simp only [depthWeight, depthItemWeight, Condition.size] at hw
          rw [hstep, ih rest (1 :: results) (by omega)]
          simp [absorbD, Condition.heightSat]
        | Not inner =>
          have hstep : runDepth (fuel + 1) (.Visit (.Not inner) :: rest) results =
              runDepth fuel (.Visit inner :: .Computed 1 :: rest) results := rfl
          simp only [depthWeight, depthItemWeight, Condition.size] at hw
          rw [hstep, ih (.Visit inner :: .Computed 1 :: rest) results
            (by simp only [depthWeight, depthItemWeight]; omega)]
          simp [absorbD, Condition.heightSat]
        | And a b =>
          have hstep : runDepth (fuel + 1) (.Visit (.And a b) :: rest) results =
              runDepth fuel (.Visit a :: .Visit b :: .Computed 2 :: rest) results := rfl
          simp only [depthWeight, depthItemWeight, Condition.size] at hw
          rw [hstep, ih (.Visit a :: .Visit b :: .Computed 2 :: rest) results
            (by simp only [depthWeight, depthItemWeight]; omega)]
          simp [absorbD, Condition.heightSat]
        | Or a b =>
          have hstep : runDepth (fuel + 1) (.Visit (.Or a b) :: rest) results =
              runDepth fuel (.Visit a :: .Visit b :: .Computed 2 :: rest) results := rfl
          simp only [depthWeight, depthItemWeight, Condition.size] at hw
          rw [hstep, ih (.Visit a :: .Visit b :: .Computed 2 :: rest) results
            (by simp only [depthWeight, depthItemWeight]; omega)]
          simp [absorbD, Condition.heightSat]
      | Computed k =>
        simp only [depthWeight, depthItemWeight] at hw
        by_cases hk : k = 1
        · subst hk
          have hstep : runDepth (fuel + 1) (.Computed 1 :: rest) results =
              runDepth fuel rest (satAdd (results.headD 0) 1 :: results.tail) := rfl
          rw [hstep, ih rest (satAdd (results.headD 0) 1 :: results.tail) (by omega)]
          simp [absorbD]
        · have hstep : runDepth (fuel + 1) (.Computed k :: rest) results =
              runDepth fuel rest
                (satAdd (max (results.tail.headD 0) (results.headD 0)) 1
                  :: results.tail.tail) := by
            simp only [runDepth]
            rw [if_neg hk]
          rw [hstep, ih rest
            (satAdd (max (results.tail.headD 0) (results.headD 0)) 1
              :: results.tail.tail) (by omega)]
          simp only [absorbD]
          rw [if_neg hk]

theorem depth_eq_heightSat (c : Condition) : c.depth = c.heightSat := by
  have h := runDepth_master (2 * c.size) [.Visit c] []
    (by simp [depthWeight, depthItemWeight])
  simp [Condition.depth, h, absorbD]

/-- C5: Condition.depth is the height of the tree: leaves (True, False,
Equals, NotEquals) have depth 1, Not adds one to the depth of its child,
And/Or add one to the larger operand depth, and each increment is a
saturating usize addition so the result never wraps. -/
theorem depth_is_saturating_height (c a b : Condition) (attr : String)
    (value : Value) :
    Condition.True.depth = 1 ∧
    Condition.False.depth = 1 ∧
    (Condition.Equals attr value).depth = 1 ∧
    (Condition.NotEquals attr value).depth = 1 ∧
    (Condition.Not c).depth = satAdd c.depth 1 ∧
    (Condition.And a b).depth = satAdd (max a.depth b.depth) 1 ∧
    (Condition.Or a b).depth = satAdd (max a.depth b.depth) 1 := by
  simp [depth_eq_heightSat, Condition.heightSat]

theorem seqE_assoc (x y z : Except PolicyError Unit) :
    seqE (seqE x y) z = seqE x (seqE y z) := by
  cases x <;> rfl

theorem seqE_okUnit (x : Except PolicyError Unit) : seqE x (.ok ()) = x := by
  cases x with
  | ok u => cases u; rfl
  | error e => rfl

theorem seqE_eq_ok_iff (x y : Except PolicyError Unit) :
    seqE x y = .ok () ↔ (x = .ok () ∧ y = .ok ()) := by
  cases x with
  | ok u => cases u; simp [seqE]
  | error e => simp [seqE]

theorem seqE_eq_error_iff (x y : Except PolicyError Unit) (e : PolicyError) :
    seqE x y = .error e ↔ (x = .error e ∨ (x = .ok () ∧ y = .error e)) := by
  cases x with
  | ok u => cases u; simp [seqE]
  | error e2 => simp [seqE]

theorem validate_str_ok_iff (s : String) (L : Nat) :
    validate_str s L = .ok () ↔ s.utf8ByteSize ≤ L := by
  by_cases h : L < s.utf8ByteSize
  · simp only [validate_str, if_pos h]
    constructor
    · intro he
      exact Except.noConfusion he
    · intro hle
      omega
  · simp only [validate_str, if_neg h]
    constructor
    · intro hx
      omega
    · intro hx
      trivial

theorem validate_str_error_iff (s : String) (L : Nat) (e : PolicyError) :
    validate_str s L = .error e ↔
      (L < s.utf8ByteSize ∧ e = .StringTooLong L s.utf8ByteSize) := by
  by_cases h : L < s.utf8ByteSize
  · simp only [validate_str, if_pos h]
    constructor
    · intro he
      injection he with he2
      exact ⟨h, he2.symm⟩
    · intro hx
      rw [hx.2]
  · simp only [validate_str, if_neg h]
    constructor
    · intro he
      exact Except.noConfusion he
    · intro hx
      omega

theorem runWalk_master (L : Nat) :
    ∀ fuel stack,
      sizeList stack ≤ fuel →
      runWalk L fuel stack = some (absorbW L stack) := by
  intro fuel
  induction fuel with
  | zero =>
    intro stack hw
    cases stack with
    | nil => simp [runWalk, absorbW]
    | cons c rest =>
      exfalso
      have h := size_pos c
      simp only [sizeList] at hw
      omega
  | succ fuel ih =>
    intro stack hw
    cases stack with
    | nil => simp [runWalk, absorbW]
    | cons c rest =>
      cases c with
      | True =>
        have hstep : runWalk L (fuel + 1) (.True :: rest) = runWalk L fuel rest := rfl
        simp only [sizeList, Condition.size] at hw
        rw [hstep, ih rest (by omega)]
        simp [absorbW, checkStrings, seqE]
      | False =>
        have hstep : runWalk L (fuel + 1) (.False :: rest) = runWalk L fuel rest := rfl
        simp only [sizeList, Condition.size] at hw
        rw [hstep, ih rest (by omega)]
        simp [absorbW, checkStrings, seqE]
      | Equals attr value =>
        simp only [sizeList, Condition.size] at hw
        cases hv : validate_str attr L with
        | error e =>
          have hstep : runWalk L (fuel + 1) (.Equals attr value :: rest) =
              some (.error e) := by
            simp only [runWalk, hv]
          rw [hstep]
          simp [absorbW, checkStrings, hv, seqE]
        | ok u =>
          cases u
          cases value with
          | String s =>
            cases hs : validate_str s L with
            | error e =>
              have hstep : runWalk L (fuel + 1) (.Equals attr (.String s) :: rest) =
                  some (.error e) := by
                simp only [runWalk, hv, hs]
              rw [hstep]
              simp [absorbW, checkStrings, hv, hs, seqE]
            | ok u2 =>
              cases u2
              have hstep : runWalk L (fuel + 1) (.Equals attr (.String s) :: rest) =
                  runWalk L fuel rest := by
                simp only [runWalk, hv, hs]
              rw [hstep, ih rest (by omega)]
              simp [absorbW, checkStrings, hv, hs, seqE]
          | Bool bb =>
            have hstep : runWalk L (fuel + 1) (.Equals attr (.Bool bb) :: rest) =
                runWalk L fuel rest := by
              simp only [runWalk, hv]
            rw [hstep, ih rest (by omega)]
            simp [absorbW, checkStrings, hv, seqE]
          | Int i =>
            have hstep : runWalk L (fuel + 1) (.Equals attr (.Int i) :: rest) =
                runWalk L fuel rest := by
              simp only [runWalk, hv]
            rw [hstep, ih rest (by omega)]
            simp [absorbW, checkStrings, hv, seqE]
      | NotEquals attr value =>
        simp only [sizeList, Condition.size] at hw
        cases hv : validate_str attr L with
        | error e =>
          have hstep : runWalk L (fuel + 1) (.NotEquals attr value :: rest) =
              some (.error e) := by
            simp only [runWalk, hv]
          rw [hstep]
          simp [absorbW, checkStrings, hv, seqE]
        | ok u =>
          cases u
          cases value with
          | String s =>
            cases hs : validate_str s L with
            | error e =>
              have hstep : runWalk L (fuel + 1) (.NotEquals attr (.String s) :: rest) =
                  some (.error e) := by
                simp only [runWalk, hv, hs]
              rw [hstep]
              simp [absorbW, checkStrings, hv, hs, seqE]
            | ok u2 =>
              cases u2
              have hstep : runWalk L (fuel + 1) (.NotEquals attr (.String s) :: rest) =
                  runWalk L fuel rest := by
                simp only [runWalk, hv, hs]
              rw [hstep, ih rest (by omega)]
              simp [absorbW, checkStrings, hv, hs, seqE]
          | Bool bb =>
            have hstep : runWalk L (fuel + 1) (.NotEquals attr (.Bool bb) :: rest) =
                runWalk L fuel rest := by
              simp only [runWalk, hv]
            rw [hstep, ih rest (by omega)]
            simp [absorbW, checkStrings, hv, seqE]
          | Int i =>
            have hstep : runWalk L (fuel + 1) (.NotEquals attr (.Int i) :: rest) =
                runWalk L fuel rest := by
              simp only [runWalk, hv]
            rw [hstep, ih rest (by omega)]
            simp [absorbW, checkStrings, hv, seqE]
      | Not inner =>
        have hstep : runWalk L (fuel + 1) (.Not inner :: rest) =
            runWalk L fuel (inner :: rest) := rfl
        simp only [sizeList, Condition.size] at hw
        rw [hstep, ih (inner :: rest) (by simp only [sizeList]; omega)]
        simp [absorbW, checkStrings]
      | And a b =>
        have hstep : runWalk L (fuel + 1) (.And a b :: rest) =
            runWalk L fuel (a :: b :: rest) := rfl
        simp only [sizeList, Condition.size] at hw
        rw [hstep, ih (a :: b :: rest) (by simp only [sizeList]; omega)]
        simp [absorbW, checkStrings, seqE_assoc]
      | Or a b =>
        have hstep : runWalk L (fuel + 1) (.Or a b :: rest) =
            runWalk L fuel (a :: b :: rest) := rfl
        simp only [sizeList, Condition.size] at hw
        rw [hstep, ih (a :: b :: rest) (by simp only [sizeList]; omega)]
        simp [absorbW, checkStrings, seqE_assoc]

theorem walk_eq_checkStrings (L : Nat) (c : Condition) :
    runWalk L c.size [c] = some (checkStrings L c) := by
  have h := runWalk_master L c.size [c] (by simp [sizeList])
  rw [h]
  simp [absorbW, seqE_okUnit]

theorem checkStrings_ok_iff (L : Nat) (c : Condition) :
    checkStrings L c = .ok () ↔ ∀ s ∈ condStrings c, s.utf8ByteSize ≤ L := by
  induction c with
  | True => simp [checkStrings, condStrings]
  | False => simp [checkStrings, condStrings]
  | Equals attr value =>
    cases value with
    | String s =>
      simp [checkStrings, condStrings, seqE_eq_ok_iff, validate_str_ok_iff]
    | Bool bb =>
      simp [checkStrings, condStrings, seqE_eq_ok_iff, validate_str_ok_iff]
    | Int i =>
      simp [checkStrings, condStrings, seqE_eq_ok_iff, validate_str_ok_iff]
  | NotEquals attr value =>
    cases value with
    | String s =>
      simp [checkStrings, condStrings, seqE_eq_ok_iff, validate_str_ok_iff]
    | Bool bb =>
      simp [checkStrings, condStrings, seqE_eq_ok_iff, validate_str_ok_iff]
    | Int i =>
      simp [checkStrings, condStrings, seqE_eq_ok_iff, validate_str_ok_iff]
  | Not inner ih => simp [checkStrings, condStrings, ih]
  | And a b iha ihb =>
    simp [checkStrings, condStrings, seqE_eq_ok_iff, iha, ihb,
      List.forall_mem_append, or_imp, forall_and]
  | Or a b iha ihb =>
    simp [checkStrings, condStrings, seqE_eq_ok_iff, iha, ihb,
      List.forall_mem_append, or_imp, forall_and]

theorem checkStrings_error_mem (L : Nat) (c : Condition) (e : PolicyError) :
    checkStrings L c = .error e →
    ∃ s, s ∈ condStrings c ∧ L < s.utf8ByteSize ∧
      e = .StringTooLong L s.utf8ByteSize := by
  induction c with
  | True => intro h; simp [checkStrings] at h
  | False => intro h; simp [checkStrings] at h
  | Equals attr value =>
    intro h
    cases value with
    | String s =>
      simp only [checkStrings, seqE_eq_error_iff, validate_str_error_iff,
        validate_str_ok_iff] at h
      cases h with
      | inl h1 => exact ⟨attr, by simp [condStrings], h1.1, h1.2⟩
      | inr h2 => exact ⟨s, by simp [condStrings], h2.2.1, h2.2.2⟩
    | Bool bb =>
      simp only [checkStrings, seqE_eq_error_iff, validate_str_error_iff,
        validate_str_ok_iff] at h
      cases h with
      | inl h1 => exact ⟨attr, by simp [condStrings], h1.1, h1.2⟩
      | inr h2 => exact absurd h2.2 (by simp)
    | Int i =>
      simp only [checkStrings, seqE_eq_error_iff, validate_str_error_iff,
        validate_str_ok_iff] at h
      cases h with
      | inl h1 => exact ⟨attr, by simp [condStrings], h1.1, h1.2⟩
      | inr h2 => exact absurd h2.2 (by simp)
  | NotEquals attr value =>
    intro h
    cases value with
    | String s =>
      simp only [checkStrings, seqE_eq_error_iff, validate_str_error_iff,
        validate_str_ok_iff] at h
      cases h with
      | inl h1 => exact ⟨attr, by simp [condStrings], h1.1, h1.2⟩
      | inr h2 => exact ⟨s, by simp [condStrings], h2.2.1, h2.2.2⟩
    | Bool bb =>
      simp only [checkStrings, seqE_eq_error_iff, validate_str_error_iff,
        validate_str_ok_iff] at h
      cases h with
      | inl h1 => exact ⟨attr, by simp [condStrings], h1.1, h1.2⟩
      | inr h2 => exact absurd h2.2 (by simp)
    | Int i =>
      simp only [checkStrings, seqE_eq_error_iff, validate_str_error_iff,
        validate_str_ok_iff] at h
      cases h with
      | inl h1 => exact ⟨attr, by simp [condStrings], h1.1, h1.2⟩
      | inr h2 => exact absurd h2.2 (by simp)
  | Not inner ih =>
    intro h
    obtain ⟨s, hmem, hlt, he⟩ := ih (by simpa [checkStrings] using h)
    exact ⟨s, by simpa [condStrings] using hmem, hlt, he⟩
  | And a b iha ihb =>
    intro h
    simp only [checkStrings, seqE_eq_error_iff] at h
    cases h with
    | inl h1 =>
      obtain ⟨s, hmem, hlt, he⟩ := iha h1
      refine ⟨s, ?_, hlt, he⟩
      simp only [condStrings, List.mem_append]
      exact Or.inl hmem
    | inr h2 =>
      obtain ⟨s, hmem, hlt, he⟩ := ihb h2.2
      refine ⟨s, ?_, hlt, he⟩
      simp only [condStrings, List.mem_append]
      exact Or.inr hmem
  | Or a b iha ihb =>
    intro h
    simp only [checkStrings, seqE_eq_error_iff] at h
    cases h with
    | inl h1 =>
      obtain ⟨s, hmem, hlt, he⟩ := iha h1
      refine ⟨s, ?_, hlt, he⟩
      simp only [condStrings, List.mem_append]
      exact Or.inl hmem
    | inr h2 =>
      obtain ⟨s, hmem, hlt, he⟩ := ihb h2.2
      refine ⟨s, ?_, hlt, he⟩
      simp only [condStrings, List.mem_append]
      exact Or.inr hmem

/-- C4: validate returns Ok exactly when the depth of the tree is at most
max_depth and every attribute name and String literal has byte length at
most max_string_len; when the depth bound is exceeded it fails with
ConditionTooDeep carrying the bound and the actual depth, regardless of
the strings (the depth check runs first); otherwise any failure is a
StringTooLong carrying the bound and the byte length of an over-long
string of the tree. -/
theorem validate_spec (c : Condition) (D L : Nat) :
    (Condition.validate c D L = .ok () ↔
      (c.depth ≤ D ∧ ∀ s ∈ condStrings c, s.utf8ByteSize ≤ L)) ∧
    (D < c.depth →
      Condition.validate c D L = .error (.ConditionTooDeep D c.depth)) ∧
    (c.depth ≤ D → ∀ e, Condition.validate c D L = .error e →
      ∃ s, s ∈ condStrings c ∧ L < s.utf8ByteSize ∧
        e = .StringTooLong L s.utf8ByteSize) := by
  have hwalk := walk_eq_checkStrings L c
  refine ⟨?_, ?_, ?_⟩
  · constructor
    · intro hok
      simp only [Condition.validate, hwalk] at hok
      by_cases hd : D < c.depth
      · rw [if_pos hd] at hok
        exact Except.noConfusion hok
      · rw [if_neg hd] at hok
        exact ⟨by omega, (checkStrings_ok_iff L c).mp hok⟩
    · intro hx
      simp only [Condition.validate, hwalk]
      rw [if_neg (by omega)]
      exact (checkStrings_ok_iff L c).mpr hx.2
  · intro hd
    simp only [Condition.validate, hwalk]
    rw [if_pos hd]
  · intro hd e herr
    simp only [Condition.validate, hwalk] at herr
    rw [if_neg (by omega)] at herr
    exact checkStrings_error_mem L c e herr

theorem validate_spec_witness :
    Condition.validate (.And (.Equals "role" (.String "admin")) (.Not .True)) 8 256 = .ok () ∧
    Condition.validate (.And (.Equals "role" (.String "admin")) (.Not .True)) 2 256 =
      .error (.ConditionTooDeep 2
        (Condition.And (.Equals "role" (.String "admin")) (.Not .True)).depth) ∧
    ∃ s, s ∈ condStrings (.And (.Equals "role" (.String "admin")) (.Not .True)) ∧
      2 < s.utf8ByteSize ∧
      (PolicyError.StringTooLong 2 4 : PolicyError) = .StringTooLong 2 s.utf8ByteSize :=
  ⟨(validate_spec (.And (.Equals "role" (.String "admin")) (.Not .True)) 8 256).1.mpr
      ⟨by decide, by decide⟩,
   (validate_spec (.And (.Equals "role" (.String "admin")) (.Not .True)) 2 256).2.1
      (by decide),
   (validate_spec (.And (.Equals "role" (.String "admin")) (.Not .True)) 8 2).2.2
      (by decide) (.StringTooLong 2 4) (by rfl)⟩

/-- C6: Matcher.Any matches every string, Exact matches exactly the equal
string (byte-exact, case-sensitive), OneOf matches exactly the members of
its list (so an empty OneOf matches nothing), and Target.matches is the
conjunction of the principal, action and resource field matches. -/
theorem matcher_target_matches (v s : String) (L : List String) (t : Target)
    (p a r : String) :
    Matcher.Any.matches v = true ∧
    ((Matcher.Exact s).matches v = true ↔ v = s) ∧
    ((Matcher.OneOf L).matches v = true ↔ v ∈ L) ∧
    (Matcher.OneOf []).matches v = false ∧
    (t.matches p a r = true ↔
      (t.principal.matches p = true ∧ t.action.matches a = true ∧
       t.resource.matches r = true)) := by
  refine ⟨rfl, ?_, ?_, rfl, ?_⟩
  · simp [Matcher.matches]
  · simp [Matcher.matches, List.any_eq_true]
  · simp [Target.matches, Bool.and_eq_true, and_assoc]

/-- C8: FixedStack.push succeeds exactly below capacity, appending the
value and growing the length by one; push on a full stack (length N)
fails with EvalStackOverflow carrying N and leaves the stack unchanged
(the functional state is not modified); pop on an empty stack is none;
pop on a nonempty stack returns the most recently pushed value, so a pop
right after a successful push returns the pushed value and the prior
state. -/
theorem fixedStack_push_pop (T : Type) (N : Nat) (s : FixedStack T N) (v : T) :
    (s.len < N →
      s.push v = .ok ⟨v :: s.buf⟩ ∧
      (FixedStack.mk (v :: s.buf) : FixedStack T N).len = s.len + 1 ∧
      (FixedStack.mk (v :: s.buf) : FixedStack T N).pop = some (v, s)) ∧
    (s.len = N → s.push v = .error (.EvalStackOverflow N)) ∧
    (s.len = 0 → s.pop = none) ∧
    (∀ (w : T) (rest : List T),
      (FixedStack.mk (w :: rest) : FixedStack T N).pop = some (w, ⟨rest⟩)) := by
  refine ⟨?_, ?_, ?_, ?_⟩
  · intro h
    have h2 : ¬ (N ≤ s.buf.length) := by
      simp only [FixedStack.len] at h
      omega
    refine ⟨?_, ?_, ?_⟩
    · simp [FixedStack.push, h2]
    · simp [FixedStack.len]
    · simp [FixedStack.pop]
  · intro h
    have h2 : N ≤ s.buf.length := by
      simp only [FixedStack.len] at h
      omega
    simp [FixedStack.push, h2]
  · intro h
    have h2 : s.buf = [] := List.length_eq_zero.mp (by simpa [FixedStack.len] using h)
    simp [FixedStack.pop, h2]
  · intro w rest
    simp [FixedStack.pop]

theorem fixedStack_push_pop_witness :
    ((FixedStack.mk [5] : FixedStack Nat 2).push 7 = .ok ⟨[7, 5]⟩ ∧
     (FixedStack.mk [7, 5] : FixedStack Nat 2).len =
       (FixedStack.mk [5] : FixedStack Nat 2).len + 1 ∧
     (FixedStack.mk [7, 5] : FixedStack Nat 2).pop = some (7, ⟨[5]⟩)) ∧
    (FixedStack.mk [7, 5] : FixedStack Nat 2).push 9 = .error (.EvalStackOverflow 2) ∧
    (FixedStack.new Nat 2).pop = none :=
  ⟨(fixedStack_push_pop Nat 2 ⟨[5]⟩ 7).1 (by decide),
   (fixedStack_push_pop Nat 2 ⟨[7, 5]⟩ 9).2.1 (by decide),
   (fixedStack_push_pop Nat 2 (FixedStack.new Nat 2) 0).2.2.1 (by decide)⟩

/-- C10: the stats counters saturate instead of wrapping: inc_rules and
inc_condition_evals add one below the u16 maximum and stay at the maximum
once there, and update_depth sets max_depth_reached to the maximum of its
current value and the given depth, so it never decreases and never
wraps. -/
theorem evalStats_saturating (s : EvaluationStats) (d : Nat) :
    (s.rules_checked < U16_MAX →
      (s.inc_rules).rules_checked = s.rules_checked + 1) ∧
    (s.rules_checked = U16_MAX → (s.inc_rules).rules_checked = U16_MAX) ∧
    (s.condition_evals < U16_MAX →
      (s.inc_condition_evals).condition_evals = s.condition_evals + 1) ∧
    (s.condition_evals = U16_MAX →
      (s.inc_condition_evals).condition_evals = U16_MAX) ∧
    (s.update_depth d).max_depth_reached = max s.max_depth_reached d ∧
    s.max_depth_reached ≤ (s.update_depth d).max_depth_reached := by
  have hmax : (s.update_depth d).max_depth_reached = max s.max_depth_reached d := by
    rw [EvaluationStats.update_depth]
    by_cases h : s.max_depth_reached < d
    · rw [if_pos h]
      simp only
      omega
    · rw [if_neg h]
      omega
  refine ⟨?_, ?_, ?_, ?_, hmax, ?_⟩
  · intro h
    simp only [EvaluationStats.inc_rules, satAdd16, U16_MAX] at h ⊢
    omega
  · intro h
    simp only [EvaluationStats.inc_rules, satAdd16, U16_MAX] at h ⊢
    omega
  · intro h
    simp only [EvaluationStats.inc_condition_evals, satAdd16, U16_MAX] at h ⊢
    omega
  · intro h
    simp only [EvaluationStats.inc_condition_evals, satAdd16, U16_MAX] at h ⊢
    omega
  · rw [hmax]
    omega

theorem evalStats_saturating_witness :
    ((EvaluationStats.mk 4 3 U16_MAX).inc_rules).rules_checked = 4 + 1 ∧
    ((EvaluationStats.mk 4 3 U16_MAX).inc_condition_evals).condition_evals = U16_MAX ∧
    ((EvaluationStats.mk 4 3 U16_MAX).update_depth 7).max_depth_reached = max 3 7 :=
  ⟨(evalStats_saturating ⟨4, 3, U16_MAX⟩ 7).1 (by decide),
   (evalStats_saturating ⟨4, 3, U16_MAX⟩ 7).2.2.2.1 (by rfl),
   (evalStats_saturating ⟨4, 3, U16_MAX⟩ 7).2.2.2.2.1⟩
